import Mathlib

/-!
ThreadPool (`src/src/thread-pool.cc`, `src/src/thread-pool.h`).

An interleaving model of the thread pool.  The pool is a record of the shared
variables of `class ThreadPool`; every thread (the dispatcher, each worker, the
thread running the destructor, the callers of `schedule` and `wait`) is a
program position, and one step executes one statement of one thread.

Conventions of the model:

* memory is sequentially consistent: one statement is one atomic step, and the
  relaxed atomics behave like plain atomic reads and writes;
* a block guarded by `queueLock` or `waitLock` is a single step (the mutex makes
  it atomic with respect to the other blocks under the same mutex, and the only
  unguarded readers read `taskQueue.empty()`, which changes once per block);
* `waitCv.notify_all()` changes no shared variable; a caller blocked in
  `waitCv.wait(lock, pred)` returns at a step at which `pred` holds;
* a thunk is a natural number naming the task; running it has no effect on the
  pool, so the model only records that it was invoked and that it returned;
* `busyCount` is an `atomic<int>` that the constructor does not initialise:
  its value at construction is a parameter of `construct`, and `fetch_add`,
  `fetch_sub` wrap around like a 32-bit `int`;
* the callers respect the lifetime of the pool: the destructor is entered when
  no `schedule` call is in progress, and `schedule` is not called afterwards;
* the lists `pushed`, `removed`, `started`, `finished` are history variables:
  they are appended to and never read by any step.
-/

namespace ThreadPool

/-- A task: the name of a scheduled thunk. -/
abbrev Task := Nat

/-- Modelled from the spec: `Semaphore.h` is not among the sources.  The spec
describes a counting signal primitive; a semaphore is modelled by its counter
(a natural number, 0 for a default-constructed semaphore and for `sem(0)`), and
`Semaphore::signal` increments the counter. -/
def Semaphore.signal (c : Nat) : Nat := c + 1

/-- Modelled from the spec: `Semaphore::wait` (missing `Semaphore.h`) blocks
while the counter is 0 (`none`) and otherwise decrements it. -/
def Semaphore.wait (c : Nat) : Option Nat :=
  if 0 < c then some (c - 1) else none

/-- Program positions of `ThreadPool::dispatcher` (thread-pool.cc:28-51). -/
inductive DPc where
  /-- line 30: `taskCount.wait()` -/
  | semWait
  /-- line 31: `if (done && taskQueue.empty()) break;` -/
  | checkDone
  /-- lines 34-39: the block under `queueLock` -/
  | dequeue
  /-- lines 41-42: loop head for slot `i` and `if (w.available)` -/
  | scan (i : Nat)
  /-- line 43: `w.available = false` -/
  | markBusy (i : Nat)
  /-- line 44: `w.thunk = move(next)` -/
  | setThunk (i : Nat)
  /-- line 45: `busyCount.fetch_add(1)` -/
  | incBusy (i : Nat)
  /-- line 46: `w.sem.signal()` -/
  | signal (i : Nat)
  /-- after the `break` of line 31 -/
  | exited
  deriving DecidableEq

/-- Program positions of `ThreadPool::worker` (thread-pool.cc:53-69). -/
inductive WPc where
  /-- line 56: `w.sem.wait()` -/
  | semWait
  /-- line 57: `if (done) break;` -/
  | checkDone
  /-- line 59: about to invoke `w.thunk()` -/
  | call
  /-- line 59: inside `w.thunk()` -/
  | running
  /-- line 60: `busyCount.fetch_sub(1)` -/
  | decBusy
  /-- lines 61-67: the block under `waitLock` -/
  | markAvail
  /-- after the `break` of line 57 -/
  | exited
  deriving DecidableEq

/-- Program positions of `ThreadPool::~ThreadPool` (thread-pool.cc:78-91). -/
inductive XPc where
  /-- the destructor has not been called -/
  | notStarted
  /-- line 79: `wait()` -/
  | drain
  /-- line 80: `done = true` -/
  | setDone
  /-- line 81: `taskCount.signal()` -/
  | wakeDispatcher
  /-- lines 82-84: `w.sem.signal()` for slot `i` -/
  | wakeWorker (i : Nat)
  /-- line 86: `dt.join()` -/
  | joinDispatcher
  /-- lines 88-90: `w.ts.join()` for slot `i` -/
  | joinWorker (i : Nat)
  /-- the destructor has returned -/
  | destroyed
  deriving DecidableEq

/-- The struct `worker_t` (thread-pool.h:34-40); `ts` is the position of the
worker's thread, `thunk` is `none` for an empty `std::function`. -/
structure worker_t where
  ts : WPc
  thunk : Option Task
  sem : Nat
  available : Bool
  deriving DecidableEq

end ThreadPool

/-- The members of `class ThreadPool` (thread-pool.h:76-86), the local `next`
of the dispatcher, the position of the destructor, the number of `schedule`
calls between their push and their signal, and the history variables. -/
structure ThreadPool where
  dt : ThreadPool.DPc
  wts : List ThreadPool.worker_t
  done : Bool
  taskQueue : List ThreadPool.Task
  taskCount : Nat
  busyCount : Int
  next : Option ThreadPool.Task
  dtor : ThreadPool.XPc
  signalling : Nat
  pushed : List ThreadPool.Task
  removed : List ThreadPool.Task
  started : List ThreadPool.Task
  finished : List ThreadPool.Task
  deriving DecidableEq

namespace ThreadPool

/-- The value of a 32-bit `int` after an arithmetic result `x`: the
representative of `x` modulo 2^32 in the range from -2^31 to 2^31 - 1. -/
def wrap32 (x : Int) : Int :=
  (x + 2147483648) % 4294967296 - 2147483648

/-- The constructor (thread-pool.cc:10-18): `numThreads` slots, each available
with an empty thunk and a semaphore at 0; the dispatcher and the workers are
started and stand at their first statement.  The initialiser list names only
`wts` and `done`, so `busyCount` keeps the value `start` that its storage
happens to hold. -/
def construct (numThreads : Nat) (start : Int) : ThreadPool :=
  { dt := .semWait
    wts := List.replicate numThreads
      { ts := .semWait, thunk := none, sem := 0, available := true }
    done := false
    taskQueue := []
    taskCount := 0
    busyCount := start
    next := none
    dtor := .notStarted
    signalling := 0
    pushed := []
    removed := []
    started := []
    finished := [] }

/-- First half of `schedule` (thread-pool.cc:21-24): push under `queueLock`.
A call is only made while the destructor has not been entered. -/
def schedule_push (thunk : Task) (p : ThreadPool) : Option ThreadPool :=
  if p.dtor = .notStarted then
    some { p with
      taskQueue := p.taskQueue ++ [thunk]
      signalling := p.signalling + 1
      pushed := p.pushed ++ [thunk] }
  else none

/-- Second half of `schedule` (thread-pool.cc:25): `taskCount.signal()` by a
caller that has pushed. -/
def schedule_signal (p : ThreadPool) : Option ThreadPool :=
  if 0 < p.signalling then
    some { p with
      taskCount := Semaphore.signal p.taskCount
      signalling := p.signalling - 1 }
  else none

/-- One statement of `ThreadPool::dispatcher` (thread-pool.cc:28-51). -/
def dispatcher (p : ThreadPool) : Option ThreadPool :=
  match p.dt with
  | .semWait =>
    match Semaphore.wait p.taskCount with
    | none => none
    | some c => some { p with taskCount := c, dt := .checkDone }
  | .checkDone =>
    if p.done && p.taskQueue.isEmpty then some { p with dt := .exited }
    else some { p with dt := .dequeue }
  | .dequeue =>
    match p.taskQueue with
    | [] => some { p with dt := .semWait }
    | t :: q =>
      some { p with
        next := some t
        taskQueue := q
        removed := p.removed ++ [t]
        dt := .scan 0 }
  | .scan i =>
    match p.wts[i]? with
    | none => some { p with next := none, dt := .semWait }
    | some w =>
      if w.available then some { p with dt := .markBusy i }
      else some { p with dt := .scan (i + 1) }
  | .markBusy i =>
    match p.wts[i]? with
    | none => none
    | some w =>
      some { p with wts := p.wts.set i { w with available := false }, dt := .setThunk i }
  | .setThunk i =>
    match p.wts[i]? with
    | none => none
    | some w =>
      some { p with
        wts := p.wts.set i { w with thunk := p.next }
        next := none
        dt := .incBusy i }
  | .incBusy i => some { p with busyCount := wrap32 (p.busyCount + 1), dt := .signal i }
  | .signal i =>
    match p.wts[i]? with
    | none => none
    | some w =>
      some { p with
        wts := p.wts.set i { w with sem := Semaphore.signal w.sem }
        dt := .semWait }
  | .exited => none

/-- One statement of `ThreadPool::worker(id)` (thread-pool.cc:53-69). -/
def worker (id : Nat) (p : ThreadPool) : Option ThreadPool :=
  match p.wts[id]? with
  | none => none
  | some w =>
    match w.ts with
    | .semWait =>
      match Semaphore.wait w.sem with
      | none => none
      | some c => some { p with wts := p.wts.set id { w with sem := c, ts := .checkDone } }
    | .checkDone =>
      if p.done then some { p with wts := p.wts.set id { w with ts := .exited } }
      else some { p with wts := p.wts.set id { w with ts := .call } }
    | .call =>
      match w.thunk with
      | none => none
      | some t =>
        some { p with
          wts := p.wts.set id { w with ts := .running }
          started := p.started ++ [t] }
    | .running =>
      match w.thunk with
      | none => none
      | some t =>
        some { p with
          wts := p.wts.set id { w with ts := .decBusy }
          finished := p.finished ++ [t] }
    | .decBusy =>
      some { p with
        busyCount := wrap32 (p.busyCount - 1)
        wts := p.wts.set id { w with ts := .markAvail } }
    | .markAvail =>
      some { p with wts := p.wts.set id { w with available := true, ts := .semWait } }
    | .exited => none

/-- The predicate of `wait` (thread-pool.cc:74):
`busyCount == 0 && taskQueue.empty()`. -/
def drained (p : ThreadPool) : Bool :=
  p.busyCount == 0 && p.taskQueue.isEmpty

/-- The method `wait` (thread-pool.cc:71-76): returns, leaving the pool as it
is, when the predicate holds under `waitLock`; blocked (`none`) otherwise. -/
def wait (p : ThreadPool) : Option ThreadPool :=
  if drained p then some p else none

/-- One statement of `ThreadPool::~ThreadPool` (thread-pool.cc:78-91).  The
destructor is entered only when no `schedule` call is in progress. -/
def destructor (p : ThreadPool) : Option ThreadPool :=
  match p.dtor with
  | .notStarted => if p.signalling = 0 then some { p with dtor := .drain } else none
  | .drain =>
    match wait p with
    | none => none
    | some q => some { q with dtor := .setDone }
  | .setDone => some { p with done := true, dtor := .wakeDispatcher }
  | .wakeDispatcher =>
    some { p with taskCount := Semaphore.signal p.taskCount, dtor := .wakeWorker 0 }
  | .wakeWorker i =>
    match p.wts[i]? with
    | none => some { p with dtor := .joinDispatcher }
    | some w =>
      some { p with
        wts := p.wts.set i { w with sem := Semaphore.signal w.sem }
        dtor := .wakeWorker (i + 1) }
  | .joinDispatcher =>
    if p.dt = .exited then some { p with dtor := .joinWorker 0 } else none
  | .joinWorker i =>
    match p.wts[i]? with
    | none => some { p with dtor := .destroyed }
    | some w => if w.ts = .exited then some { p with dtor := .joinWorker (i + 1) } else none
  | .destroyed => none

/-- The thread that moves next, with the argument of a `schedule` call. -/
inductive Action where
  | schedulePush (thunk : Task)
  | scheduleSignal
  | waitCall
  | dispatch
  | work (id : Nat)
  | destroy
  deriving DecidableEq

/-- One step of the pool: the chosen thread executes its next statement;
`none` when that thread is blocked or has terminated. -/
def step (a : Action) (p : ThreadPool) : Option ThreadPool :=
  match a with
  | .schedulePush t => schedule_push t p
  | .scheduleSignal => schedule_signal p
  | .waitCall => wait p
  | .dispatch => dispatcher p
  | .work id => worker id p
  | .destroy => destructor p

/-- Runs a schedule (a list of steps) from a pool. -/
def run : ThreadPool → List Action → Option ThreadPool
  | p, [] => some p
  | p, a :: as =>
    match step a p with
    | none => none
    | some q => run q as

/-! ## History read off a schedule -/

/-- The thunks passed to `schedule` by a schedule, in call order. -/
def scheduled : List Action → List Task
  | [] => []
  | .schedulePush t :: as => t :: scheduled as
  | _ :: as => scheduled as

/-! ## Quantities the claims speak about -/

/-- Number of worker slots whose `available` flag is false. -/
def unavailable (p : ThreadPool) : Nat :=
  p.wts.countP (fun w => !w.available)

/-- Number of workers positioned inside the `w.thunk()` call. -/
def executing (p : ThreadPool) : Nat :=
  p.wts.countP (fun w => w.ts == .running)

/-- One for a dispatcher standing between `w.available = false` (line 43) and
`busyCount.fetch_add` (line 45), zero otherwise. -/
def DPc.deficit : DPc → Nat
  | .setThunk _ | .incBusy _ => 1
  | _ => 0

/-- Number of threads standing between the write of an `available` flag and
the matching update of `busyCount`: workers between `fetch_sub` (line 60) and
`w.available = true` (line 63), plus the dispatcher between lines 43 and 45. -/
def handingOver (p : ThreadPool) : Nat :=
  p.wts.countP (fun w => w.ts == .markAvail) + p.dt.deficit

/-- A task is accounted for when it is still queued, held by the dispatcher in
`next`, attached to a slot that is not available, or has finished running. -/
def accounted (p : ThreadPool) (t : Task) : Bool :=
  p.taskQueue.contains t || p.next == some t ||
    p.wts.any (fun w => !w.available && w.thunk == some t) || p.finished.contains t

/-- The pool is idle: nothing queued, nothing held by the dispatcher, every
slot available. -/
def idle (p : ThreadPool) : Prop :=
  p.taskQueue = [] ∧ p.next = none ∧ ∀ w ∈ p.wts, w.available = true

/-! ## Invariants -/

/-- Relation of the dispatcher to one slot: `marking` before line 43 on that
slot, `setting` before line 44, `counting` before line 45, `signalling` before
line 46, `idle` when the dispatcher is elsewhere. -/
inductive Phase where
  | idle | marking | setting | counting | signalling
  deriving DecidableEq

/-- The phase of the dispatcher with respect to slot `j`. -/
def DPc.phase (d : DPc) (j : Nat) : Phase :=
  match d with
  | .markBusy i => if i = j then .marking else .idle
  | .setThunk i => if i = j then .setting else .idle
  | .incBusy i => if i = j then .counting else .idle
  | .signal i => if i = j then .signalling else .idle
  | _ => .idle

/-- True once the destructor has executed `done = true`. -/
def XPc.flagged : XPc → Bool
  | .notStarted | .drain | .setDone => false
  | _ => true

/-- One once the destructor has executed its `taskCount.signal()`. -/
def XPc.extra : XPc → Nat
  | .notStarted | .drain | .setDone | .wakeDispatcher => 0
  | _ => 1

/-- One when the dispatcher has consumed a unit of `taskCount` that it has not
yet turned into a dequeue (or has exited on it). -/
def DPc.token : DPc → Nat
  | .checkDone | .dequeue | .exited => 1
  | _ => 0

/-- True where the local `next` of the dispatcher holds a dequeued task. -/
def DPc.carries : DPc → Bool
  | .scan _ | .markBusy _ | .setThunk _ => true
  | _ => false

/-- Accounting of `taskCount` against `taskQueue`, and the effect of the
destructor on it. -/
structure InvQ (p : ThreadPool) : Prop where
  flag : p.done = p.dtor.flagged
  sig : p.dtor ≠ .notStarted → p.signalling = 0
  empty : p.dtor ≠ .notStarted → p.dtor ≠ .drain → p.taskQueue = []
  count : p.taskCount + p.signalling + p.dt.token = p.taskQueue.length + p.dtor.extra
  deq : p.dt = .dequeue → p.dtor = .notStarted ∨ p.dtor = .drain

/-- The handshake between the dispatcher and one worker over a slot. -/
def SlotOK (ph : Phase) (done : Bool) (w : worker_t) : Prop :=
  (ph = .marking → w.available = true) ∧
  (ph = .setting ∨ ph = .counting ∨ ph = .signalling →
    w.available = false ∧ (w.ts = .semWait ∨ w.ts = .checkDone ∨ w.ts = .exited) ∧
      (done = false → w.ts = .semWait ∧ w.sem = 0)) ∧
  (w.ts = .call ∨ w.ts = .running ∨ w.ts = .decBusy ∨ w.ts = .markAvail →
    w.available = false ∧ ph = .idle) ∧
  (done = false →
    w.ts ≠ .exited ∧ w.sem ≤ 1 ∧ (w.ts ≠ .semWait → w.sem = 0 ∧ w.available = false) ∧
      (w.available = true → w.sem = 0)) ∧
  (w.available = false → ph = .setting ∨ w.thunk.isSome = true)

/-- Every slot obeys the handshake; the dispatcher indexes an existing slot and
holds a task where it is about to hand one over. -/
structure InvS (p : ThreadPool) : Prop where
  idx : ∀ i, p.dt = .markBusy i ∨ p.dt = .setThunk i ∨ p.dt = .incBusy i ∨ p.dt = .signal i →
    i < p.wts.length
  nxt : p.dt.carries = true → p.next.isSome = true
  flag : p.done = p.dtor.flagged
  slot : ∀ j w, p.wts[j]? = some w → SlotOK (p.dt.phase j) p.done w

/-- The value of `busyCount` in terms of its value at construction and of the
slots, modulo 2^32; the value stays in the range of an `int` when it started
there. -/
def InvB (start : Int) (p : ThreadPool) : Prop :=
  p.busyCount % 4294967296 =
      (start + (unavailable p : Int) - (handingOver p : Int)) % 4294967296 ∧
    (-2147483648 ≤ start → start < 2147483648 →
      -2147483648 ≤ p.busyCount ∧ p.busyCount < 2147483648)

/-- The task of a slot that has been handed over and not yet invoked. -/
def slotPending (ph : Phase) (w : worker_t) : List Task :=
  if w.available = false ∧ ph ≠ .setting ∧
      (w.ts = .semWait ∨ w.ts = .checkDone ∨ w.ts = .call) then w.thunk.toList
  else []

/-- The handed-over, not yet invoked tasks of the slots from index `k` on. -/
def pendingFrom (d : DPc) : Nat → List worker_t → List Task
  | _, [] => []
  | k, w :: ws => slotPending (d.phase k) w ++ pendingFrom d (k + 1) ws

/-- The handed-over, not yet invoked tasks of the pool. -/
def pending (p : ThreadPool) : List Task := pendingFrom p.dt 0 p.wts

/-- Every invocation, pending hand-over and held task is paid for by one
dequeue. -/
def InvM (p : ThreadPool) : Prop :=
  ∀ t : Task,
    p.started.count t + (pending p).count t + p.next.toList.count t ≤ p.removed.count t

/-- The queue is the not yet removed tail of the pushed sequence, and the
number of slots is fixed. -/
structure InvF (numThreads : Nat) (p : ThreadPool) : Prop where
  fifo : p.removed ++ p.taskQueue = p.pushed
  size : p.wts.length = numThreads

/-- All invariants together. -/
def Inv (numThreads : Nat) (start : Int) (p : ThreadPool) : Prop :=
  InvQ p ∧ InvS p ∧ InvB start p ∧ InvM p ∧ InvF numThreads p

/-! ## Schedules and the pools they reach -/

/-- Two tasks for one worker: both `schedule` calls complete and the dispatcher
hands task 1 to slot 0 and dequeues task 2 while slot 0 is still busy. -/
def scanSchedule : List Action :=
  [.schedulePush 1, .scheduleSignal, .schedulePush 2, .scheduleSignal] ++
    List.replicate 11 .dispatch

/-- The schedule `scanSchedule` followed by the scan over the single slot and
the end of the loop body. -/
def overloadSchedule : List Action :=
  scanSchedule ++ [.dispatch, .dispatch]

/-- One task for one worker: `schedule(7)` completes and the dispatcher
dequeues the task (lines 30-38). -/
def earlySchedule : List Action :=
  [.schedulePush 7, .scheduleSignal, .dispatch, .dispatch, .dispatch]

/-- The schedule `earlySchedule`, then the destructor up to its joins (lines
79-84), then the dispatcher hands the task over and exits, the worker wakes
and exits, and the destructor joins both. -/
def shutdownSchedule : List Action :=
  earlySchedule ++ List.replicate 6 .destroy ++ List.replicate 7 .dispatch ++
    [.work 0, .work 0] ++ List.replicate 3 .destroy

/-- One task for one worker, up to the dispatcher having executed
`w.available = false` (line 43). -/
def lagSchedule : List Action :=
  [.schedulePush 7, .scheduleSignal] ++ List.replicate 5 .dispatch

/-- One task for one worker, run up to the worker having executed
`busyCount.fetch_sub` (line 60). -/
def returningSchedule : List Action :=
  [.schedulePush 4, .scheduleSignal] ++ List.replicate 8 .dispatch ++
    List.replicate 5 (.work 0)

/-- The pool reached by `returningSchedule` on one worker. -/
def returningPool : ThreadPool :=
  { construct 1 0 with
    wts := [{ ts := .markAvail, thunk := some 4, sem := 0, available := false }]
    pushed := [4], removed := [4], started := [4], finished := [4] }

/-- Three tasks for two workers: the dispatcher hands task 5 to slot 0 and
dequeues task 6. -/
def fifoSchedule : List Action :=
  [.schedulePush 5, .scheduleSignal, .schedulePush 6, .scheduleSignal, .schedulePush 7,
    .scheduleSignal] ++ List.replicate 11 .dispatch

/-- The pool reached by `fifoSchedule` on two workers. -/
def fifoPool : ThreadPool :=
  { construct 2 0 with
    dt := .scan 0
    wts := [{ ts := .semWait, thunk := some 5, sem := 1, available := false },
      { ts := .semWait, thunk := none, sem := 0, available := true }]
    taskQueue := [7], taskCount := 1, busyCount := 1, next := some 6
    pushed := [5, 6, 7], removed := [5, 6] }

/-- Two tasks for two workers, both handed over and both invoked. -/
def parallelSchedule : List Action :=
  [.schedulePush 1, .scheduleSignal, .schedulePush 2, .scheduleSignal] ++
    List.replicate 17 .dispatch ++ [.work 0, .work 0, .work 0, .work 1, .work 1, .work 1]

/-- The pool reached by `parallelSchedule` on two workers. -/
def parallelPool : ThreadPool :=
  { construct 2 0 with
    wts := [{ ts := .running, thunk := some 1, sem := 0, available := false },
      { ts := .running, thunk := some 2, sem := 0, available := false }]
    busyCount := 2, pushed := [1, 2], removed := [1, 2], started := [1, 2] }

/-- One task for one worker, up to the worker standing before `w.thunk()`. -/
def callSchedule : List Action :=
  [.schedulePush 9, .scheduleSignal] ++ List.replicate 8 .dispatch ++ [.work 0, .work 0]

/-- The pool reached by `callSchedule` on one worker. -/
def callPool : ThreadPool :=
  { construct 1 0 with
    wts := [{ ts := .call, thunk := some 9, sem := 0, available := false }]
    busyCount := 1, pushed := [9], removed := [9] }

/-- One `schedule` call and the dispatcher past `taskCount.wait()` and the
check of `done`. -/
def dequeueSchedule : List Action :=
  [.schedulePush 3, .scheduleSignal, .dispatch, .dispatch]

/-- The pool reached by `dequeueSchedule` on one worker. -/
def dequeuePool : ThreadPool :=
  { construct 1 0 with dt := .dequeue, taskQueue := [3], pushed := [3] }

/-! # Theorems -/

/-! ## Evaluation of the position functions -/

theorem flagged_eqs : XPc.flagged .notStarted = false ∧ XPc.flagged .drain = false ∧
    XPc.flagged .setDone = false ∧ XPc.flagged .wakeDispatcher = true ∧
    (∀ i, XPc.flagged (.wakeWorker i) = true) ∧ XPc.flagged .joinDispatcher = true ∧
    (∀ i, XPc.flagged (.joinWorker i) = true) ∧ XPc.flagged .destroyed = true := by
  simp [XPc.flagged]

theorem carries_eqs : DPc.carries .semWait = false ∧ DPc.carries .checkDone = false ∧
    DPc.carries .dequeue = false ∧ (∀ i, DPc.carries (.scan i) = true) ∧
    (∀ i, DPc.carries (.markBusy i) = true) ∧ (∀ i, DPc.carries (.setThunk i) = true) ∧
    (∀ i, DPc.carries (.incBusy i) = false) ∧ (∀ i, DPc.carries (.signal i) = false) ∧
    DPc.carries .exited = false := by
  simp [DPc.carries]

theorem phase_eqs (j : Nat) : DPc.phase .semWait j = .idle ∧ DPc.phase .checkDone j = .idle ∧
    DPc.phase .dequeue j = .idle ∧ (∀ i, DPc.phase (.scan i) j = .idle) ∧
    (∀ i, DPc.phase (.markBusy i) j = if i = j then .marking else .idle) ∧
    (∀ i, DPc.phase (.setThunk i) j = if i = j then .setting else .idle) ∧
    (∀ i, DPc.phase (.incBusy i) j = if i = j then .counting else .idle) ∧
    (∀ i, DPc.phase (.signal i) j = if i = j then .signalling else .idle) ∧
    DPc.phase .exited j = .idle := by
  simp [DPc.phase]

theorem wait_eq_some {p q : ThreadPool} (h : wait p = some q) : drained p = true ∧ q = p := by
  unfold wait at h
  split at h
  · exact ⟨by assumption, by injection h with h; exact h.symm⟩
  · cases h

theorem getElem?_set_cases {α : Type} {l : List α} {i j : Nat} {a w : α}
    (h : (l.set i a)[j]? = some w) : (i = j ∧ w = a ∧ i < l.length) ∨ (i ≠ j ∧ l[j]? = some w) := by
  rw [List.getElem?_set] at h
  split at h
  · split at h
    · left; exact ⟨by assumption, by injection h with h; exact h.symm, by assumption⟩
    · cases h
  · right; exact ⟨by assumption, h⟩

/-! ### One slot under one statement -/

theorem slotOK_semWait {ph : Phase} {done : Bool} {w : worker_t} {c : Nat}
    (h : SlotOK ph done w) (hts : w.ts = .semWait) (hsem : 0 < w.sem) (hc : w.sem - 1 = c) :
    SlotOK ph done { w with sem := c, ts := .checkDone } := by
  obtain ⟨ts, th, sem, av⟩ := w
  simp only at hts hsem hc
  subst hts hc
  cases ph <;> cases done <;> cases av <;> simp_all [SlotOK]

theorem slotOK_exit {ph : Phase} {w : worker_t} (h : SlotOK ph true w)
    (hts : w.ts = .checkDone) : SlotOK ph true { w with ts := .exited } := by
  obtain ⟨ts, th, sem, av⟩ := w
  simp only at hts
  subst hts
  cases ph <;> cases av <;> simp_all [SlotOK]

theorem slotOK_call {ph : Phase} {w : worker_t} (h : SlotOK ph false w)
    (hts : w.ts = .checkDone) : SlotOK ph false { w with ts := .call } := by
  obtain ⟨ts, th, sem, av⟩ := w
  simp only at hts
  subst hts
  cases ph <;> cases av <;> simp_all [SlotOK]

theorem slotOK_busy {ph : Phase} {done : Bool} {w : worker_t} (ts : WPc)
    (h : SlotOK ph done w)
    (hts : w.ts = .call ∨ w.ts = .running ∨ w.ts = .decBusy)
    (hts2 : ts = .running ∨ ts = .decBusy ∨ ts = .markAvail) :
    SlotOK ph done { w with ts := ts } := by
  obtain ⟨ts0, th, sem, av⟩ := w
  simp only at hts
  rcases hts with rfl | rfl | rfl <;> rcases hts2 with rfl | rfl | rfl <;>
    cases ph <;> cases done <;> cases av <;> simp_all [SlotOK]

theorem slotOK_release {ph : Phase} {done : Bool} {w : worker_t} (h : SlotOK ph done w)
    (hts : w.ts = .markAvail) : SlotOK ph done { w with available := true, ts := .semWait } := by
  obtain ⟨ts, th, sem, av⟩ := w
  simp only at hts
  subst hts
  cases ph <;> cases done <;> cases av <;> simp_all [SlotOK]

theorem slotOK_mark {done : Bool} {w : worker_t} (h : SlotOK .idle done w)
    (hav : w.available = true) : SlotOK .marking done w := by
  obtain ⟨ts, th, sem, av⟩ := w
  simp only at hav
  subst hav
  cases done <;> simp_all [SlotOK]

theorem slotOK_markBusy {done : Bool} {w : worker_t} (h : SlotOK .marking done w) :
    SlotOK .setting done { w with available := false } := by
  obtain ⟨ts, th, sem, av⟩ := w
  cases done <;> cases av <;> cases ts <;> simp_all [SlotOK]

theorem slotOK_setThunk {done : Bool} {w : worker_t} {nxt : Option Task}
    (h : SlotOK .setting done w) (hn : nxt.isSome = true) :
    SlotOK .counting done { w with thunk := nxt } := by
  obtain ⟨ts, th, sem, av⟩ := w
  cases done <;> cases av <;> simp_all [SlotOK]

theorem slotOK_incBusy {done : Bool} {w : worker_t} (h : SlotOK .counting done w) :
    SlotOK .signalling done w := by
  obtain ⟨ts, th, sem, av⟩ := w
  cases done <;> cases av <;> simp_all [SlotOK]

theorem slotOK_signal {done : Bool} {w : worker_t} (h : SlotOK .signalling done w) :
    SlotOK .idle done { w with sem := Semaphore.signal w.sem } := by
  obtain ⟨ts, th, sem, av⟩ := w
  cases done <;> cases av <;> simp_all [SlotOK, Semaphore.signal]

theorem slotOK_done {ph : Phase} {done : Bool} {w : worker_t} (h : SlotOK ph done w) :
    SlotOK ph true w := by
  obtain ⟨ts, th, sem, av⟩ := w
  cases ph <;> cases done <;> cases av <;> simp_all [SlotOK]

theorem slotOK_wake {ph : Phase} {w : worker_t} (h : SlotOK ph true w) :
    SlotOK ph true { w with sem := Semaphore.signal w.sem } := by
  obtain ⟨ts, th, sem, av⟩ := w
  cases ph <;> cases av <;> simp_all [SlotOK]

theorem extra_eqs : XPc.extra .notStarted = 0 ∧ XPc.extra .drain = 0 ∧
    XPc.extra .setDone = 0 ∧ XPc.extra .wakeDispatcher = 0 ∧
    (∀ i, XPc.extra (.wakeWorker i) = 1) ∧ XPc.extra .joinDispatcher = 1 ∧
    (∀ i, XPc.extra (.joinWorker i) = 1) ∧ XPc.extra .destroyed = 1 := by
  simp [XPc.extra]

theorem token_eqs : DPc.token .semWait = 0 ∧ DPc.token .checkDone = 1 ∧
    DPc.token .dequeue = 1 ∧ (∀ i, DPc.token (.scan i) = 0) ∧
    (∀ i, DPc.token (.markBusy i) = 0) ∧ (∀ i, DPc.token (.setThunk i) = 0) ∧
    (∀ i, DPc.token (.incBusy i) = 0) ∧ (∀ i, DPc.token (.signal i) = 0) ∧
    DPc.token .exited = 1 := by
  simp [DPc.token]


/-! ## Counting over the slots -/

theorem deficit_eqs : DPc.deficit .semWait = 0 ∧ DPc.deficit .checkDone = 0 ∧
    DPc.deficit .dequeue = 0 ∧ (∀ i, DPc.deficit (.scan i) = 0) ∧
    (∀ i, DPc.deficit (.markBusy i) = 0) ∧ (∀ i, DPc.deficit (.setThunk i) = 1) ∧
    (∀ i, DPc.deficit (.incBusy i) = 1) ∧ (∀ i, DPc.deficit (.signal i) = 0) ∧
    DPc.deficit .exited = 0 := by
  simp [DPc.deficit]

theorem countP_set_add {α : Type} (f : α → Bool) (a w : α) :
    ∀ (l : List α) (i : Nat), l[i]? = some w →
      (l.set i a).countP f + (if f w then 1 else 0) = l.countP f + (if f a then 1 else 0) := by
  intro l
  induction l with
  | nil => intro i h; simp at h
  | cons x xs ih =>
    intro i h
    cases i with
    | zero =>
      simp at h
      subst h
      simp only [List.set_cons_zero, List.countP_cons]
      omega
    | succ i =>
      simp at h
      have := ih i h
      simp only [List.set_cons_succ, List.countP_cons]
      omega

theorem slotPending_congr {ph ph' : Phase} (w : worker_t)
    (h : ph' = .setting ↔ ph = .setting) : slotPending ph' w = slotPending ph w := by
  unfold slotPending
  simp only [ne_eq, h]

theorem pendingFrom_congr (d d' : DPc) (h : ∀ j, d'.phase j = .setting ↔ d.phase j = .setting) :
    ∀ (ws : List worker_t) (k : Nat), pendingFrom d' k ws = pendingFrom d k ws := by
  intro ws
  induction ws with
  | nil => intro k; rfl
  | cons w ws ih =>
    intro k
    simp only [pendingFrom, ih (k + 1), slotPending_congr w (h k)]

theorem pendingFrom_congr_from (d d' : DPc) :
    ∀ (ws : List worker_t) (k : Nat),
      (∀ j, k ≤ j → (d'.phase j = .setting ↔ d.phase j = .setting)) →
      pendingFrom d' k ws = pendingFrom d k ws := by
  intro ws
  induction ws with
  | nil => intro k _; rfl
  | cons w ws ih =>
    intro k h
    simp only [pendingFrom, ih (k + 1) (fun j hj => h j (by omega)),
      slotPending_congr w (h k (Nat.le_refl k))]

theorem pendingFrom_set_count (t : Task) (d d' : DPc) (w0 w1 : worker_t) :
    ∀ (ws : List worker_t) (k i : Nat), ws[i]? = some w0 →
      (∀ j, j ≠ k + i → (d'.phase j = .setting ↔ d.phase j = .setting)) →
      (pendingFrom d' k (ws.set i w1)).count t + (slotPending (d.phase (k + i)) w0).count t =
        (pendingFrom d k ws).count t + (slotPending (d'.phase (k + i)) w1).count t := by
  intro ws
  induction ws with
  | nil => intro k i h; simp at h
  | cons w ws ih =>
    intro k i h hph
    cases i with
    | zero =>
      simp at h
      subst h
      have hrest := pendingFrom_congr_from d d' ws (k + 1)
        (fun j hj => hph j (by omega))
      simp only [List.set_cons_zero, pendingFrom, List.count_append, hrest, Nat.add_zero]
      omega
    | succ i =>
      simp at h
      have hrec := ih (k + 1) i h (fun j hj => hph j (by omega))
      have hk : slotPending (d'.phase k) w = slotPending (d.phase k) w :=
        slotPending_congr w (hph k (by omega))
      have e : k + 1 + i = k + (i + 1) := by omega
      rw [e] at hrec
      simp only [List.set_cons_succ, pendingFrom, List.count_append, hk]
      omega

theorem pendingFrom_count_le (t : Task) (d : DPc) (w0 : worker_t) :
    ∀ (ws : List worker_t) (k i : Nat), ws[i]? = some w0 →
      (slotPending (d.phase (k + i)) w0).count t ≤ (pendingFrom d k ws).count t := by
  intro ws
  induction ws with
  | nil => intro k i h; simp at h
  | cons w ws ih =>
    intro k i h
    cases i with
    | zero =>
      simp at h
      subst h
      simp only [pendingFrom, List.count_append, Nat.add_zero]
      omega
    | succ i =>
      simp at h
      have hrec := ih (k + 1) i h
      have e : k + 1 + i = k + (i + 1) := by omega
      rw [e] at hrec
      simp only [pendingFrom, List.count_append]
      omega


/-! ## Queue accounting -/

theorem InvQ_construct (n : Nat) (b : Int) : InvQ (construct n b) := by
  constructor <;> simp [construct, flagged_eqs, extra_eqs, token_eqs]

theorem InvQ_step {p q : ThreadPool} {a : Action} (h : InvQ p) (hs : step a p = some q) : InvQ q := by
  obtain ⟨h1, h2, h3, h4, h5⟩ := h
  cases a <;> simp only [step] at hs
  · unfold schedule_push at hs
    split at hs <;> simp at hs
    subst hs
    constructor <;> simp_all [flagged_eqs, extra_eqs, token_eqs]
    omega
  · unfold schedule_signal at hs
    split at hs <;> simp at hs
    subst hs
    constructor <;> simp_all [flagged_eqs, extra_eqs, token_eqs, Semaphore.signal]
    omega
  · obtain ⟨-, rfl⟩ := wait_eq_some hs
    constructor <;> assumption
  · unfold dispatcher Semaphore.wait at hs
    cases hd : p.dt <;> simp only [hd] at hs h4 h5
    all_goals (try split at hs)
    all_goals (try split at hs)
    all_goals (try (simp at hs))
    all_goals (try subst hs)
    all_goals (constructor <;> simp_all [flagged_eqs, extra_eqs, token_eqs])
    all_goals first
      | omega
      | (cases hx : p.dtor <;> simp_all [flagged_eqs, extra_eqs, token_eqs])
  · unfold worker Semaphore.wait at hs
    split at hs
    · simp at hs
    · split at hs
      all_goals (try split at hs)
      all_goals (try (simp at hs))
      all_goals (try subst hs)
      all_goals (constructor <;> simp_all [flagged_eqs, extra_eqs, token_eqs])
  · unfold destructor Semaphore.signal at hs
    cases hx : p.dtor <;> simp only [hx] at hs h1 h2 h3 h4 h5
    case drain =>
      split at hs
      · cases hs
      · rename_i q0 hw
        obtain ⟨hdr, rfl⟩ := wait_eq_some hw
        simp at hs; subst hs
        simp [drained] at hdr
        constructor <;> simp_all [flagged_eqs, extra_eqs, token_eqs]
        all_goals (cases hd : q0.dt <;> simp_all [flagged_eqs, extra_eqs, token_eqs])
    all_goals (try split at hs)
    all_goals (try split at hs)
    all_goals (try (simp at hs))
    all_goals (try subst hs)
    all_goals (constructor <;> simp_all [flagged_eqs, extra_eqs, token_eqs])

/-! ## The slot handshake -/

theorem InvS_construct (n : Nat) (b : Int) : InvS (construct n b) := by
  refine ⟨?_, ?_, ?_, ?_⟩
  · simp [construct]
  · simp [construct, carries_eqs]
  · simp [construct, flagged_eqs]
  · intro j w hj
    simp [construct, List.getElem?_replicate] at hj
    obtain ⟨-, rfl⟩ := hj
    simp [construct, SlotOK, phase_eqs]

theorem InvS_dispatcher {p q : ThreadPool} (h : InvS p) (hs : dispatcher p = some q) :
    InvS q := by
  obtain ⟨hidx, hnxt, hflag, hslot⟩ := h
  unfold dispatcher Semaphore.wait at hs
  cases hd : p.dt <;> simp only [hd] at hs hidx hnxt hslot
  case semWait =>
    split at hs <;> simp at hs
    subst hs
    refine ⟨by simp, by simp [carries_eqs], hflag, fun j w hj => ?_⟩
    simpa [phase_eqs] using hslot j w hj
  case checkDone =>
    split at hs <;> simp at hs <;> subst hs
    all_goals refine ⟨by simp, by simp [carries_eqs], hflag, fun j w hj => ?_⟩
    all_goals simpa [phase_eqs] using hslot j w hj
  case dequeue =>
    split at hs <;> simp at hs <;> subst hs
    all_goals refine ⟨by simp, by simp [carries_eqs], hflag, fun j w hj => ?_⟩
    all_goals simpa [phase_eqs] using hslot j w hj
  case scan i =>
    split at hs
    · simp at hs; subst hs
      refine ⟨by simp, by simp [carries_eqs], hflag, fun j w hj => ?_⟩
      simpa [phase_eqs] using hslot j w hj
    · rename_i w0 hw0
      split at hs <;> simp at hs <;> subst hs
      · refine ⟨?_, by simpa [carries_eqs] using hnxt, hflag, fun j w hj => ?_⟩
        · intro k hk
          simp at hk; subst hk
          exact (List.getElem?_eq_some.1 hw0).1
        · have h0 := hslot j w hj
          simp only [phase_eqs] at h0 ⊢
          split
          · rename_i hij
            subst hij
            simp only [] at hj
            rw [hw0] at hj
            injection hj with hj
            subst hj
            exact slotOK_mark h0 (by assumption)
          · exact h0
      · refine ⟨by simp, by simpa [carries_eqs] using hnxt, hflag, fun j w hj => ?_⟩
        simpa [phase_eqs] using hslot j w hj
  case markBusy i =>
    split at hs <;> simp at hs
    rename_i w0 hw0
    subst hs
    refine ⟨by simpa using hidx, by simpa [carries_eqs] using hnxt, hflag, fun j w hj => ?_⟩
    rcases getElem?_set_cases hj with ⟨rfl, rfl, -⟩ | ⟨hne, hj2⟩
    · have h0 := hslot i w0 hw0
      simp only [phase_eqs, if_true] at h0 ⊢
      exact slotOK_markBusy h0
    · have h0 := hslot j w hj2
      simp only [phase_eqs, if_neg hne] at h0 ⊢
      exact h0
  case setThunk i =>
    split at hs <;> simp at hs
    rename_i w0 hw0
    subst hs
    refine ⟨by simpa using hidx, by simp [carries_eqs], hflag, fun j w hj => ?_⟩
    rcases getElem?_set_cases hj with ⟨rfl, rfl, -⟩ | ⟨hne, hj2⟩
    · have h0 := hslot i w0 hw0
      simp only [phase_eqs, if_true] at h0 ⊢
      exact slotOK_setThunk h0 (by simpa [carries_eqs] using hnxt)
    · have h0 := hslot j w hj2
      simp only [phase_eqs, if_neg hne] at h0 ⊢
      exact h0
  case incBusy i =>
    simp at hs
    subst hs
    refine ⟨by simpa using hidx, by simp [carries_eqs], hflag, fun j w hj => ?_⟩
    have h0 := hslot j w hj
    simp only [phase_eqs] at h0 ⊢
    split
    · rename_i hij
      rw [if_pos hij] at h0
      exact slotOK_incBusy h0
    · rename_i hij
      rw [if_neg hij] at h0
      exact h0
  case signal i =>
    split at hs <;> simp at hs
    rename_i w0 hw0
    subst hs
    refine ⟨by simp, by simp [carries_eqs], hflag, fun j w hj => ?_⟩
    rcases getElem?_set_cases hj with ⟨rfl, rfl, -⟩ | ⟨hne, hj2⟩
    · have h0 := hslot i w0 hw0
      simp only [phase_eqs, if_true] at h0 ⊢
      exact slotOK_signal h0
    · have h0 := hslot j w hj2
      simp only [phase_eqs, if_neg hne] at h0 ⊢
      exact h0
  case exited => simp at hs

theorem InvS_worker {p q : ThreadPool} {id : Nat} (h : InvS p) (hs : worker id p = some q) :
    InvS q := by
  obtain ⟨hidx, hnxt, hflag, hslot⟩ := h
  unfold worker Semaphore.wait at hs
  split at hs
  · simp at hs
  rename_i w0 hw0
  have h0 := hslot id w0 hw0
  have key : ∀ w1 : worker_t, SlotOK (p.dt.phase id) p.done w1 →
      InvS { p with wts := p.wts.set id w1 } := by
    intro w1 h1
    refine ⟨by simpa using hidx, hnxt, hflag, fun j w hj => ?_⟩
    rcases getElem?_set_cases hj with ⟨rfl, rfl, -⟩ | ⟨-, hj2⟩
    · exact h1
    · exact hslot j w hj2
  cases hts : w0.ts <;> simp only [hts] at hs
  case semWait =>
    split at hs <;> simp at hs
    rename_i c hc
    subst hs
    exact key _ (slotOK_semWait h0 hts (by split at hc <;> simp_all) (by split at hc <;> simp_all))
  case checkDone =>
    split at hs <;> simp at hs <;> subst hs
    · rename_i hdone
      refine key _ ?_
      rw [hdone] at h0 ⊢
      exact slotOK_exit h0 hts
    · rename_i hdone
      simp at hdone
      refine key _ ?_
      rw [hdone] at h0 ⊢
      exact slotOK_call h0 hts
  case call =>
    split at hs <;> simp at hs
    subst hs
    obtain ⟨a, b, c, d⟩ := key _ (slotOK_busy .running h0 (by simp [hts]) (by simp))
    exact ⟨a, b, c, d⟩
  case running =>
    split at hs <;> simp at hs
    subst hs
    obtain ⟨a, b, c, d⟩ := key _ (slotOK_busy .decBusy h0 (by simp [hts]) (by simp))
    exact ⟨a, b, c, d⟩
  case decBusy =>
    simp at hs
    subst hs
    obtain ⟨a, b, c, d⟩ := key _ (slotOK_busy .markAvail h0 (by simp [hts]) (by simp))
    exact ⟨a, b, c, d⟩
  case markAvail =>
    simp at hs
    subst hs
    exact key _ (slotOK_release h0 hts)
  case exited => simp at hs

theorem InvS_destructor {p q : ThreadPool} (h : InvS p) (hs : destructor p = some q) :
    InvS q := by
  obtain ⟨hidx, hnxt, hflag, hslot⟩ := h
  unfold destructor at hs
  cases hx : p.dtor <;> simp only [hx] at hs hflag
  case notStarted =>
    split at hs <;> simp at hs
    subst hs
    exact ⟨hidx, hnxt, by simpa [hx, flagged_eqs] using hflag, hslot⟩
  case drain =>
    split at hs
    · cases hs
    · rename_i q0 hw
      obtain ⟨-, rfl⟩ := wait_eq_some hw
      simp at hs; subst hs
      exact ⟨hidx, hnxt, by simpa [hx, flagged_eqs] using hflag, hslot⟩
  case setDone =>
    simp at hs; subst hs
    exact ⟨hidx, hnxt, by simp [flagged_eqs], fun j w hj => slotOK_done (hslot j w hj)⟩
  case wakeDispatcher =>
    simp at hs; subst hs
    exact ⟨hidx, hnxt, by simpa [hx, flagged_eqs] using hflag, hslot⟩
  case wakeWorker i =>
    have hdone : p.done = true := by simpa [flagged_eqs] using hflag
    split at hs <;> simp at hs <;> subst hs
    · exact ⟨hidx, hnxt, by simpa [hx, flagged_eqs] using hflag, hslot⟩
    · rename_i w0 hw0
      refine ⟨by simpa using hidx, hnxt, by simpa [hx, flagged_eqs] using hflag, fun j w hj => ?_⟩
      rcases getElem?_set_cases hj with ⟨rfl, rfl, -⟩ | ⟨-, hj2⟩
      · have h0 := hslot i w0 hw0
        simp only [hdone] at h0 ⊢
        exact slotOK_wake h0
      · exact hslot j w hj2
  case joinDispatcher =>
    split at hs <;> simp at hs
    subst hs
    exact ⟨hidx, hnxt, by simpa [hx, flagged_eqs] using hflag, hslot⟩
  case joinWorker i =>
    split at hs
    · simp at hs; subst hs
      exact ⟨hidx, hnxt, by simpa [hx, flagged_eqs] using hflag, hslot⟩
    · split at hs <;> simp at hs
      subst hs
      exact ⟨hidx, hnxt, by simpa [hx, flagged_eqs] using hflag, hslot⟩
  case destroyed => simp at hs


/-! ## The busy count -/

theorem InvB_construct (n : Nat) (b : Int) : InvB b (construct n b) := by
  refine ⟨?_, fun h1 h2 => ⟨h1, h2⟩⟩
  simp [handingOver, unavailable, construct, deficit_eqs, List.countP_replicate]

theorem InvB_dispatcher {b : Int} {p q : ThreadPool} (hS : InvS p) (h : InvB b p)
    (hs : dispatcher p = some q) : InvB b q := by
  unfold InvB handingOver unavailable at h ⊢
  unfold dispatcher Semaphore.wait at hs
  cases hd : p.dt <;> simp only [hd] at hs h
  case semWait =>
    split at hs <;> simp at hs
    subst hs
    simpa [deficit_eqs] using h
  case checkDone =>
    split at hs <;> simp at hs <;> subst hs <;> simpa [deficit_eqs] using h
  case dequeue =>
    split at hs <;> simp at hs <;> subst hs <;> simpa [deficit_eqs] using h
  case scan i =>
    split at hs
    · simp at hs; subst hs; simpa [deficit_eqs] using h
    · split at hs <;> simp at hs <;> subst hs <;> simpa [deficit_eqs] using h
  case markBusy i =>
    split at hs <;> simp at hs
    rename_i w0 hw0
    subst hs
    have h0 := hS.slot i w0 hw0
    simp only [hd, phase_eqs, if_true] at h0
    have hav : w0.available = true := h0.1 rfl
    have e1 := countP_set_add (fun w => !w.available) { w0 with available := false } w0 p.wts i hw0
    have e2 := countP_set_add (fun w => w.ts == .markAvail) { w0 with available := false } w0
      p.wts i hw0
    simp only [hav, deficit_eqs] at e1 e2 h ⊢
    simp at e1 e2
    omega
  case setThunk i =>
    split at hs <;> simp at hs
    rename_i w0 hw0
    subst hs
    have e1 := countP_set_add (fun w => !w.available) { w0 with thunk := p.next } w0 p.wts i hw0
    have e2 := countP_set_add (fun w => w.ts == .markAvail) { w0 with thunk := p.next } w0
      p.wts i hw0
    simp only [deficit_eqs] at e1 e2 h ⊢
    omega
  case incBusy i =>
    simp at hs
    subst hs
    simp only [deficit_eqs, wrap32] at h ⊢
    omega
  case signal i =>
    split at hs <;> simp at hs
    rename_i w0 hw0
    subst hs
    have e1 := countP_set_add (fun w => !w.available)
      { w0 with sem := Semaphore.signal w0.sem } w0 p.wts i hw0
    have e2 := countP_set_add (fun w => w.ts == .markAvail)
      { w0 with sem := Semaphore.signal w0.sem } w0 p.wts i hw0
    simp only [deficit_eqs] at e1 e2 h ⊢
    omega
  case exited => simp at hs

theorem InvB_worker {b : Int} {p q : ThreadPool} {id : Nat} (hS : InvS p) (h : InvB b p)
    (hs : worker id p = some q) : InvB b q := by
  unfold InvB handingOver unavailable at h ⊢
  unfold worker Semaphore.wait at hs
  split at hs
  · simp at hs
  rename_i w0 hw0
  have h0 := hS.slot id w0 hw0
  have e1 := fun w1 => countP_set_add (fun w => !w.available) w1 w0 p.wts id hw0
  have e2 := fun w1 => countP_set_add (fun w => w.ts == .markAvail) w1 w0 p.wts id hw0
  cases hts : w0.ts <;> simp only [hts] at hs e2
  case semWait =>
    split at hs <;> simp at hs
    rename_i c hc
    subst hs
    have e1 := e1 { w0 with sem := c, ts := .checkDone }
    have e2 := e2 { w0 with sem := c, ts := .checkDone }
    simp at e1 e2
    simp only []
    omega
  case checkDone =>
    split at hs <;> simp at hs <;> subst hs
    · have e1 := e1 { w0 with ts := .exited }
      have e2 := e2 { w0 with ts := .exited }
      simp at e1 e2
      simp only []
      omega
    · have e1 := e1 { w0 with ts := .call }
      have e2 := e2 { w0 with ts := .call }
      simp at e1 e2
      simp only []
      omega
  case call =>
    split at hs <;> simp at hs
    subst hs
    have e1 := e1 { w0 with ts := .running }
    have e2 := e2 { w0 with ts := .running }
    simp at e1 e2
    simp only []
    omega
  case running =>
    split at hs <;> simp at hs
    subst hs
    have e1 := e1 { w0 with ts := .decBusy }
    have e2 := e2 { w0 with ts := .decBusy }
    simp at e1 e2
    simp only []
    omega
  case decBusy =>
    simp at hs
    subst hs
    have e1 := e1 { w0 with ts := .markAvail }
    have e2 := e2 { w0 with ts := .markAvail }
    simp at e1 e2
    simp only [wrap32]
    omega
  case markAvail =>
    simp at hs
    subst hs
    have hav : w0.available = false := (h0.2.2.1 (by simp [hts])).1
    have e1 := e1 { w0 with available := true, ts := .semWait }
    have e2 := e2 { w0 with available := true, ts := .semWait }
    simp [hav] at e1 e2
    simp only []
    omega
  case exited => simp at hs

theorem InvB_destructor {b : Int} {p q : ThreadPool} (h : InvB b p)
    (hs : destructor p = some q) : InvB b q := by
  unfold InvB handingOver unavailable at h ⊢
  unfold destructor at hs
  cases hx : p.dtor <;> simp only [hx] at hs
  case notStarted =>
    split at hs <;> simp at hs
    subst hs
    exact h
  case drain =>
    split at hs
    · cases hs
    · rename_i q0 hw
      obtain ⟨-, rfl⟩ := wait_eq_some hw
      simp at hs; subst hs
      exact h
  case setDone => simp at hs; subst hs; exact h
  case wakeDispatcher => simp at hs; subst hs; exact h
  case wakeWorker i =>
    split at hs <;> simp at hs <;> subst hs
    · exact h
    · rename_i w0 hw0
      have e1 := countP_set_add (fun w => !w.available)
        { w0 with sem := Semaphore.signal w0.sem } w0 p.wts i hw0
      have e2 := countP_set_add (fun w => w.ts == .markAvail)
        { w0 with sem := Semaphore.signal w0.sem } w0 p.wts i hw0
      dsimp only at e1 e2 ⊢
      omega
  case joinDispatcher =>
    split at hs <;> simp at hs
    subst hs
    exact h
  case joinWorker i =>
    split at hs
    · simp at hs; subst hs; exact h
    · split at hs <;> simp at hs
      subst hs
      exact h
  case destroyed => simp at hs

/-! ## Dequeues pay for invocations -/

theorem pendingFrom_replicate (d : DPc) (w : worker_t) (hw : w.available = true) :
    ∀ (n k : Nat), pendingFrom d k (List.replicate n w) = [] := by
  intro n
  induction n with
  | zero => intro k; rfl
  | succ n ih =>
    intro k
    simp [List.replicate_succ, pendingFrom, ih, slotPending, hw]

theorem InvM_construct (n : Nat) (b : Int) : InvM (construct n b) := by
  intro t
  simp [pending, construct, pendingFrom_replicate]

theorem InvM_dispatcher {p q : ThreadPool} (hS : InvS p) (h : InvM p)
    (hs : dispatcher p = some q) : InvM q := by
  intro t
  have ht := h t
  unfold pending at ht ⊢
  unfold dispatcher Semaphore.wait at hs
  cases hd : p.dt <;> simp only [hd] at hs ht
  case semWait =>
    split at hs <;> simp at hs
    subst hs
    have e := pendingFrom_congr (.semWait) (.checkDone) (by simp [phase_eqs]) p.wts 0
    simp only [e]
    exact ht
  case checkDone =>
    split at hs <;> simp at hs <;> subst hs
    · have e := pendingFrom_congr (.checkDone) (.exited) (by simp [phase_eqs]) p.wts 0
      simp only [e]
      exact ht
    · have e := pendingFrom_congr (.checkDone) (.dequeue) (by simp [phase_eqs]) p.wts 0
      simp only [e]
      exact ht
  case dequeue =>
    split at hs <;> simp at hs <;> subst hs
    · have e := pendingFrom_congr (.dequeue) (.semWait) (by simp [phase_eqs]) p.wts 0
      simp only [e]
      exact ht
    · have e := pendingFrom_congr (.dequeue) (.scan 0) (by simp [phase_eqs]) p.wts 0
      simp only [e, List.count_append, Option.toList]
      omega
  case scan i =>
    split at hs
    · simp at hs; subst hs
      have e := pendingFrom_congr (.scan i) (.semWait) (by simp [phase_eqs]) p.wts 0
      simp only [e, Option.toList, List.count_nil]
      omega
    · split at hs <;> simp at hs <;> subst hs
      · have e := pendingFrom_congr (.scan i) (.markBusy i)
          (by intro j; simp only [phase_eqs]; split <;> simp) p.wts 0
        simp only [e]
        exact ht
      · have e := pendingFrom_congr (.scan i) (.scan (i + 1))
          (by simp [phase_eqs]) p.wts 0
        simp only [e]
        exact ht
  case markBusy i =>
    split at hs <;> simp at hs
    rename_i w0 hw0
    subst hs
    have h0 := hS.slot i w0 hw0
    simp only [hd, phase_eqs, if_true] at h0
    have hav : w0.available = true := h0.1 rfl
    have e := pendingFrom_set_count t (.markBusy i) (.setThunk i) w0
      { w0 with available := false } p.wts 0 i hw0
      (by intro j hj; simp only [phase_eqs]
          rw [if_neg (by omega), if_neg (by omega)])
    simp [slotPending, phase_eqs, hav] at e
    simp only [e]
    exact ht
  case setThunk i =>
    split at hs <;> simp at hs
    rename_i w0 hw0
    subst hs
    have e := pendingFrom_set_count t (.setThunk i) (.incBusy i) w0
      { w0 with thunk := p.next } p.wts 0 i hw0
      (by intro j hj; simp only [phase_eqs]
          rw [if_neg (by omega), if_neg (by omega)])
    have hle : (slotPending (DPc.phase (.incBusy i) (0 + i)) { w0 with thunk := p.next }).count t ≤
        p.next.toList.count t := by
      unfold slotPending
      split <;> simp
    simp [slotPending, phase_eqs] at e
    simp only [Option.toList, List.count_nil]
    simp [slotPending, phase_eqs] at hle
    omega
  case incBusy i =>
    simp at hs
    subst hs
    have e := pendingFrom_congr (.incBusy i) (.signal i)
      (by intro j; simp only [phase_eqs]; split <;> simp) p.wts 0
    simp only [e]
    exact ht
  case signal i =>
    split at hs <;> simp at hs
    rename_i w0 hw0
    subst hs
    have e := pendingFrom_set_count t (.signal i) (.semWait) w0
      { w0 with sem := Semaphore.signal w0.sem } p.wts 0 i hw0
      (by intro j hj; simp only [phase_eqs]
          rw [if_neg (by omega)])
    simp [slotPending, phase_eqs] at e
    simp only []
    omega
  case exited => simp at hs

theorem InvM_worker {p q : ThreadPool} {id : Nat} (hS : InvS p) (h : InvM p)
    (hs : worker id p = some q) : InvM q := by
  intro t
  have ht := h t
  unfold pending at ht ⊢
  unfold worker Semaphore.wait at hs
  split at hs
  · simp at hs
  rename_i w0 hw0
  have h0 := hS.slot id w0 hw0
  have e := fun w1 => pendingFrom_set_count t (p.dt) (p.dt) w0 w1 p.wts 0 id hw0
    (fun _ _ => Iff.rfl)
  simp only [Nat.zero_add] at e
  cases hts : w0.ts <;> simp only [hts] at hs
  case semWait =>
    split at hs <;> simp at hs
    rename_i c hc
    subst hs
    have e := e { w0 with sem := c, ts := .checkDone }
    simp [slotPending, hts] at e
    simp only []
    omega
  case checkDone =>
    split at hs <;> simp at hs <;> subst hs
    · have e := e { w0 with ts := .exited }
      simp [slotPending, hts] at e
      simp only []
      omega
    · have e := e { w0 with ts := .call }
      simp [slotPending, hts] at e
      simp only []
      omega
  case call =>
    split at hs <;> simp at hs
    rename_i t0 hth
    subst hs
    obtain ⟨hav, hph⟩ := h0.2.2.1 (by simp [hts])
    have e := e { w0 with ts := .running }
    have a0 : slotPending (p.dt.phase id) w0 = [t0] := by
      simp [slotPending, hts, hav, hph, hth]
    have a1 : slotPending (p.dt.phase id) { w0 with ts := .running } = [] := by
      simp [slotPending]
    rw [a0, a1] at e
    simp only [List.count_append, List.count_nil] at e ⊢
    omega
  case running =>
    split at hs <;> simp at hs
    subst hs
    have e := e { w0 with ts := .decBusy }
    simp [slotPending, hts] at e
    simp only []
    omega
  case decBusy =>
    simp at hs
    subst hs
    have e := e { w0 with ts := .markAvail }
    simp [slotPending, hts] at e
    simp only []
    omega
  case markAvail =>
    simp at hs
    subst hs
    have e := e { w0 with available := true, ts := .semWait }
    simp [slotPending, hts] at e
    simp only []
    omega
  case exited => simp at hs

theorem InvM_destructor {p q : ThreadPool} (h : InvM p)
    (hs : destructor p = some q) : InvM q := by
  intro t
  have ht := h t
  unfold pending at ht ⊢
  unfold destructor at hs
  cases hx : p.dtor <;> simp only [hx] at hs
  case notStarted =>
    split at hs <;> simp at hs
    subst hs
    exact ht
  case drain =>
    split at hs
    · cases hs
    · rename_i q0 hw
      obtain ⟨-, rfl⟩ := wait_eq_some hw
      simp at hs; subst hs
      exact ht
  case setDone => simp at hs; subst hs; exact ht
  case wakeDispatcher => simp at hs; subst hs; exact ht
  case wakeWorker i =>
    split at hs <;> simp at hs <;> subst hs
    · exact ht
    · rename_i w0 hw0
      have e := pendingFrom_set_count t (p.dt) (p.dt) w0
        { w0 with sem := Semaphore.signal w0.sem } p.wts 0 i hw0 (fun _ _ => Iff.rfl)
      simp [slotPending] at e
      simp only []
      omega
  case joinDispatcher =>
    split at hs <;> simp at hs
    subst hs
    exact ht
  case joinWorker i =>
    split at hs
    · simp at hs; subst hs; exact ht
    · split at hs <;> simp at hs
      subst hs
      exact ht
  case destroyed => simp at hs


/-! ## The queue and the slot vector -/

theorem InvF_construct (n : Nat) (b : Int) : InvF n (construct n b) := by
  constructor <;> simp [construct]

theorem step_pushed {p q : ThreadPool} {a : Action} (hs : step a p = some q) :
    q.pushed = p.pushed ++ scheduled [a] ∧ (p.removed ++ p.taskQueue = p.pushed →
      q.removed ++ q.taskQueue = q.pushed) ∧ q.wts.length = p.wts.length := by
  cases a <;> simp only [step] at hs
  · unfold schedule_push at hs
    split at hs <;> simp at hs
    subst hs
    refine ⟨by simp [scheduled], fun h => ?_, rfl⟩
    simp only [← h, List.append_assoc]
  · unfold schedule_signal at hs
    split at hs <;> simp at hs
    subst hs
    exact ⟨by simp [scheduled], fun h => h, rfl⟩
  · obtain ⟨-, rfl⟩ := wait_eq_some hs
    exact ⟨by simp [scheduled], fun h => h, rfl⟩
  · unfold dispatcher Semaphore.wait at hs
    cases hd : p.dt <;> simp only [hd] at hs
    case dequeue =>
      split at hs <;> simp at hs <;> subst hs
      · exact ⟨by simp [scheduled], fun h => h, rfl⟩
      · rename_i t0 q0 hq
        refine ⟨by simp [scheduled], fun h => ?_, rfl⟩
        simp only [← h, hq, List.append_assoc, List.singleton_append]
    all_goals (try split at hs)
    all_goals (try split at hs)
    all_goals (try (simp at hs))
    all_goals (try subst hs)
    all_goals exact ⟨by simp [scheduled], fun h => h, by simp⟩
  · unfold worker Semaphore.wait at hs
    split at hs
    · simp at hs
    · split at hs
      all_goals (try split at hs)
      all_goals (try (simp at hs))
      all_goals (try subst hs)
      all_goals exact ⟨by simp [scheduled], fun h => h, by simp⟩
  · unfold destructor at hs
    cases hx : p.dtor <;> simp only [hx] at hs
    case drain =>
      split at hs
      · cases hs
      · rename_i q0 hw
        obtain ⟨-, rfl⟩ := wait_eq_some hw
        simp at hs; subst hs
        exact ⟨by simp [scheduled], fun h => h, rfl⟩
    all_goals (try split at hs)
    all_goals (try split at hs)
    all_goals (try (simp at hs))
    all_goals (try subst hs)
    all_goals exact ⟨by simp [scheduled], fun h => h, by simp⟩

theorem InvF_step {n : Nat} {p q : ThreadPool} {a : Action} (h : InvF n p)
    (hs : step a p = some q) : InvF n q := by
  obtain ⟨-, h2, h3⟩ := step_pushed hs
  exact ⟨h2 h.fifo, h3.trans h.size⟩

/-! ## Reachable states -/

theorem InvS_step {p q : ThreadPool} {a : Action} (h : InvS p) (hs : step a p = some q) :
    InvS q := by
  cases a <;> simp only [step] at hs
  · unfold schedule_push at hs
    split at hs <;> simp at hs
    subst hs
    exact ⟨h.idx, h.nxt, h.flag, h.slot⟩
  · unfold schedule_signal at hs
    split at hs <;> simp at hs
    subst hs
    exact ⟨h.idx, h.nxt, h.flag, h.slot⟩
  · obtain ⟨-, rfl⟩ := wait_eq_some hs
    exact h
  · exact InvS_dispatcher h hs
  · exact InvS_worker h hs
  · exact InvS_destructor h hs

theorem InvB_step {b : Int} {p q : ThreadPool} {a : Action} (hS : InvS p) (h : InvB b p)
    (hs : step a p = some q) : InvB b q := by
  cases a <;> simp only [step] at hs
  · unfold schedule_push at hs
    split at hs <;> simp at hs
    subst hs
    exact h
  · unfold schedule_signal at hs
    split at hs <;> simp at hs
    subst hs
    exact h
  · obtain ⟨-, rfl⟩ := wait_eq_some hs
    exact h
  · exact InvB_dispatcher hS h hs
  · exact InvB_worker hS h hs
  · exact InvB_destructor h hs

theorem InvM_step {p q : ThreadPool} {a : Action} (hS : InvS p) (h : InvM p)
    (hs : step a p = some q) : InvM q := by
  cases a <;> simp only [step] at hs
  · unfold schedule_push at hs
    split at hs <;> simp at hs
    subst hs
    exact h
  · unfold schedule_signal at hs
    split at hs <;> simp at hs
    subst hs
    exact h
  · obtain ⟨-, rfl⟩ := wait_eq_some hs
    exact h
  · exact InvM_dispatcher hS h hs
  · exact InvM_worker hS h hs
  · exact InvM_destructor h hs

theorem Inv_construct (n : Nat) (b : Int) : Inv n b (construct n b) :=
  ⟨InvQ_construct n b, InvS_construct n b, InvB_construct n b, InvM_construct n b,
    InvF_construct n b⟩

theorem Inv_step {n : Nat} {b : Int} {p q : ThreadPool} {a : Action} (h : Inv n b p)
    (hs : step a p = some q) : Inv n b q := by
  obtain ⟨hQ, hS, hB, hM, hF⟩ := h
  exact ⟨InvQ_step hQ hs, InvS_step hS hs, InvB_step hS hB hs, InvM_step hS hM hs,
    InvF_step hF hs⟩

theorem Inv_run {n : Nat} {b : Int} : ∀ (acts : List Action) (p q : ThreadPool),
    Inv n b p → run p acts = some q → Inv n b q := by
  intro acts
  induction acts with
  | nil =>
    intro p q h hr
    simp only [run] at hr
    injection hr with hr
    subst hr
    exact h
  | cons a as ih =>
    intro p q h hr
    simp only [run] at hr
    split at hr
    · cases hr
    · rename_i r hstep
      exact ih r q (Inv_step h hstep) hr

theorem Inv_reachable {n : Nat} {b : Int} {acts : List Action} {p : ThreadPool}
    (h : run (construct n b) acts = some p) : Inv n b p :=
  Inv_run acts (construct n b) p (Inv_construct n b) h

theorem run_pushed : ∀ (acts : List Action) (p q : ThreadPool),
    run p acts = some q → q.pushed = p.pushed ++ scheduled acts := by
  intro acts
  induction acts with
  | nil =>
    intro p q hr
    simp only [run] at hr
    injection hr with hr
    subst hr
    simp [scheduled]
  | cons a as ih =>
    intro p q hr
    simp only [run] at hr
    split at hr
    · cases hr
    · rename_i r hstep
      rw [ih r q hr, (step_pushed hstep).1, List.append_assoc]
      congr 1
      cases a <;> simp [scheduled]

/-! ## Threads between a flag write and the counter update -/

theorem countP_succ_le {α : Type} (f g : α → Bool) (w : α) (hf : f w = true)
    (hg : g w = false) :
    ∀ (l : List α) (i : Nat), l[i]? = some w → (∀ x ∈ l, g x = true → f x = true) →
      l.countP g + 1 ≤ l.countP f := by
  intro l
  induction l with
  | nil => intro i h; simp at h
  | cons x xs ih =>
    intro i h hfg
    have htail : ∀ y ∈ xs, g y = true → f y = true :=
      fun y hy => hfg y (List.mem_cons_of_mem x hy)
    cases i with
    | zero =>
      simp at h
      subst h
      have hmono : xs.countP g ≤ xs.countP f := List.countP_mono_left htail
      simp only [List.countP_cons, hf, hg]
      simp
      omega
    | succ i =>
      simp at h
      have hrec := ih i h htail
      have hx := hfg x (List.mem_cons_self x xs)
      simp only [List.countP_cons]
      by_cases hgx : g x = true
      · rw [if_pos hgx, if_pos (hx hgx)]
        omega
      · rw [if_neg hgx]
        split <;> omega

theorem handingOver_le {p : ThreadPool} (hS : InvS p) : handingOver p ≤ unavailable p := by
  have hmem : ∀ w ∈ p.wts, (w.ts == WPc.markAvail) = true → (!w.available) = true := by
    intro w hw hts
    obtain ⟨j, hj⟩ := List.mem_iff_getElem?.1 hw
    have h3 := (hS.slot j w hj).2.2.1 (Or.inr (Or.inr (Or.inr (by simpa using hts))))
    simp [h3.1]
  have hhold : ∀ i, p.dt = .setThunk i ∨ p.dt = .incBusy i →
      p.wts.countP (fun w => w.ts == .markAvail) + 1 ≤ p.wts.countP (fun w => !w.available) := by
    intro i hi
    have hlt : i < p.wts.length := hS.idx i (by tauto)
    have hj : p.wts[i]? = some p.wts[i] := List.getElem?_eq_getElem hlt
    have h2 := (hS.slot i _ hj).2.1
      (by rcases hi with hi | hi <;> rw [hi] <;> simp [phase_eqs])
    refine countP_succ_le _ _ p.wts[i] (by simp [h2.1]) ?_ p.wts i hj hmem
    rcases h2.2.1 with hts | hts | hts <;> simp [hts]
  unfold handingOver unavailable
  cases hd : p.dt <;> simp only [deficit_eqs]
  case setThunk i => exact hhold i (Or.inl hd)
  case incBusy i => exact hhold i (Or.inr hd)
  all_goals exact List.countP_mono_left hmem

/-! ## The idle pool -/

theorem idle_busyCount (numThreads : Nat) (start : Int) (acts : List Action)
    (p : ThreadPool) (h : run (construct numThreads start) acts = some p) (hidle : idle p) :
    p.busyCount % 4294967296 = start % 4294967296 := by
  obtain ⟨-, hS, hB, -, -⟩ := Inv_reachable h
  have hun : unavailable p = 0 := by
    unfold unavailable
    rw [List.countP_eq_zero]
    intro w hw
    simp [hidle.2.2 w hw]
  have hle := handingOver_le hS
  have hmod := hB.1
  rw [hun] at hmod
  have hz : handingOver p = 0 := by omega
  rw [hz] at hmod
  simpa using hmod

/-! ## The claims -/

/-- C1 (no task loss) fails on the code: with one worker and two scheduled
tasks, the dispatcher dequeues task 2 while the only slot is busy with task 1,
the scan of lines 41-49 ends without an assignment and `next` is destroyed.
Task 2 is then neither queued, nor held, nor attached to a slot, nor run. -/
theorem scheduled_task_dropped :
    (run (construct 1 0) overloadSchedule).map
        (fun p => (p.pushed, p.taskQueue, p.next,
          p.wts.map (fun w => (w.available, w.thunk)), p.finished, accounted p 2)) =
      some ([1, 2], [], none, [(false, some 1)], [], false) := by
  rfl

/-- C2 (drain correctness) fails on the code: on a pool whose `busyCount` was 0
at construction, after `schedule(7)` has completed and the dispatcher has
dequeued the task but not yet incremented `busyCount`, the predicate of `wait`
holds and `wait` returns, although task 7 is held by the dispatcher and has
not run. -/
theorem wait_returns_before_task_runs :
    (run (construct 1 0) earlySchedule).map
        (fun p => (p.signalling, p.pushed, p.next, p.started, p.finished,
          decide (wait p = some p))) =
      some (0, [7], some 7, [], [], true) := by
  rfl

/-- C3 (FIFO dequeue order): in every reachable state the tasks removed by the
dispatcher, followed by the queue contents, are exactly the thunks passed to
`schedule` in call order; the removed tasks are an initial segment of them. -/
theorem fifo_dequeue_order (numThreads : Nat) (start : Int) (acts : List Action)
    (p : ThreadPool) (h : run (construct numThreads start) acts = some p) :
    p.pushed = scheduled acts ∧ p.removed ++ p.taskQueue = p.pushed ∧
      p.removed <+: p.pushed := by
  have hF := (Inv_reachable h).2.2.2.2
  refine ⟨?_, hF.fifo, ⟨p.taskQueue, hF.fifo⟩⟩
  have := run_pushed acts (construct numThreads start) p h
  simpa [construct] using this

/-- Witness of C3: three tasks on two workers, two of them dequeued. -/
theorem fifo_dequeue_order_witness :
    run (construct 2 0) fifoSchedule = some fifoPool ∧
      (fifoPool.pushed = scheduled fifoSchedule ∧
        fifoPool.removed ++ fifoPool.taskQueue = fifoPool.pushed ∧
        fifoPool.removed <+: fifoPool.pushed) :=
  ⟨by decide, fifo_dequeue_order 2 0 fifoSchedule fifoPool (by decide)⟩

/-- C4 (bounded parallelism): in every reachable state of a pool constructed
with `numThreads` workers, at most `numThreads` workers are inside `w.thunk()`. -/
theorem bounded_parallelism (numThreads : Nat) (start : Int) (acts : List Action)
    (p : ThreadPool) (h : run (construct numThreads start) acts = some p) :
    executing p ≤ numThreads := by
  have hF := (Inv_reachable h).2.2.2.2
  have hlen := hF.size
  have hle : executing p ≤ p.wts.length := List.countP_le_length _
  omega

/-- Witness of C4: two workers, both inside their thunk. -/
theorem bounded_parallelism_witness :
    run (construct 2 0) parallelSchedule = some parallelPool ∧ executing parallelPool ≤ 2 :=
  ⟨by decide, bounded_parallelism 2 0 parallelSchedule parallelPool (by decide)⟩

/-- C5 (clean shutdown) fails on the code: on a pool whose `busyCount` was 0 at
construction, the destructor's `wait` returns while the dispatcher holds
dequeued task 7; the destructor sets `done` and wakes every thread; the
dispatcher then hands the task to slot 0 and exits, the worker wakes, sees
`done` and exits without invoking it.  The destructor completes with task 7
never run. -/
theorem shutdown_skips_task :
    (run (construct 1 0) shutdownSchedule).map
        (fun p => (p.dtor, p.dt, p.wts.map (fun w => (w.ts, w.available, w.thunk)),
          p.pushed, p.started, p.finished)) =
      some (.destroyed, .exited, [(.exited, false, some 7)], [7], [], []) := by
  rfl

/-- C6 (at-most-once execution): in every reachable state each task has been
invoked at most as often as it was scheduled (so distinct tasks are invoked at
most once each), and a worker standing before `w.thunk()` holds, in a slot
that is not available, a task with a dequeue that no invocation has used. -/
theorem at_most_once (numThreads : Nat) (start : Int) (acts : List Action)
    (p : ThreadPool) (h : run (construct numThreads start) acts = some p) :
    (∀ t, p.started.count t ≤ p.pushed.count t) ∧
      (p.pushed.Nodup → p.started.Nodup) ∧
      (∀ (i : Nat) (w : worker_t), p.wts[i]? = some w → w.ts = .call →
        w.available = false ∧
          ∃ t, w.thunk = some t ∧ p.started.count t < p.removed.count t) := by
  obtain ⟨-, hS, -, hM, hF⟩ := Inv_reachable h
  have hcount : ∀ t, p.started.count t ≤ p.pushed.count t := by
    intro t
    have := hM t
    rw [← hF.fifo, List.count_append]
    omega
  refine ⟨hcount, ?_, ?_⟩
  · intro hnd
    rw [List.nodup_iff_count_le_one] at hnd ⊢
    intro t
    exact (hcount t).trans (hnd t)
  · intro i w hw hts
    obtain ⟨-, -, h3, -, h5⟩ := hS.slot i w hw
    obtain ⟨hav, hph⟩ := h3 (Or.inl hts)
    refine ⟨hav, ?_⟩
    rcases h5 hav with hset | hsome
    · rw [hph] at hset
      cases hset
    · obtain ⟨t, ht⟩ := Option.isSome_iff_exists.1 hsome
      refine ⟨t, ht, ?_⟩
      have hle := pendingFrom_count_le t p.dt w p.wts 0 i hw
      have hone : (slotPending (p.dt.phase (0 + i)) w).count t = 1 := by
        simp [slotPending, hav, hph, hts, ht]
      have := hM t
      unfold pending at this
      omega

/-- Witness of C6: one task on one worker, the worker standing before the
invocation. -/
theorem at_most_once_witness :
    run (construct 1 0) callSchedule = some callPool ∧
      ((∀ t, callPool.started.count t ≤ callPool.pushed.count t) ∧
        (callPool.pushed.Nodup → callPool.started.Nodup) ∧
        (∀ (i : Nat) (w : worker_t), callPool.wts[i]? = some w → w.ts = .call →
          w.available = false ∧
            ∃ t, w.thunk = some t ∧ callPool.started.count t < callPool.removed.count t)) :=
  ⟨by decide, at_most_once 1 0 callSchedule callPool (by decide)⟩

/-- C7 (idempotent wait) fails on the code: the constructor never stores to
`busyCount`, so on a freshly constructed pool, which is idle, the counter holds
whatever its storage held; when that value is not 0 the predicate of `wait` is
false and `wait` blocks. -/
theorem wait_blocks_on_fresh_pool :
    run (construct 2 (-1414812757)) [] = some (construct 2 (-1414812757)) ∧
      idle (construct 2 (-1414812757)) ∧
      drained (construct 2 (-1414812757)) = false ∧
      wait (construct 2 (-1414812757)) = none :=
  ⟨by decide, by simp [idle, construct], by decide, by decide⟩

/-- C8 (the dispatcher always finds a worker) fails on the code: with one
worker busy with task 1, the dispatcher dequeues task 2 and starts the scan
with no slot available; two steps later the loop body has ended, `next` is
gone and task 2 is accounted for nowhere. -/
theorem scan_finds_no_worker :
    (run (construct 1 0) scanSchedule).map
        (fun p => (p.dt, p.next, p.wts.map (fun w => w.available))) =
      some (.scan 0, some 2, [false]) ∧
    (run (construct 1 0) (scanSchedule ++ [.dispatch, .dispatch])).map
        (fun p => (p.dt, p.next, p.wts.map (fun w => w.thunk), p.taskQueue)) =
      some (.semWait, none, [some 1], []) := by
  decide

/-- C9 as stated fails: after the dispatcher has executed `w.available = false`
and before `busyCount.fetch_add`, `busyCount` is 0 while one slot is
unavailable. -/
theorem busy_count_lags :
    (run (construct 1 0) lagSchedule).map (fun p => (p.dt, p.busyCount, unavailable p)) =
      some (.setThunk 0, 0, 1) := by
  decide

/-- C9 amended (busy count): in every reachable state `busyCount` equals,
modulo 2^32, its value at construction plus the number of unavailable slots
minus the number of threads standing between the write of an `available` flag
and the matching update of `busyCount`; that number of threads never exceeds
the number of unavailable slots; and for a pool whose `busyCount` was 0 at
construction, with fewer than 2^31 workers, `busyCount` plus that number of
threads is exactly the number of unavailable slots. -/
theorem busy_count_invariant (numThreads : Nat) (start : Int) (acts : List Action)
    (p : ThreadPool) (h : run (construct numThreads start) acts = some p) :
    p.busyCount % 4294967296 =
        (start + (unavailable p : Int) - (handingOver p : Int)) % 4294967296 ∧
      handingOver p ≤ unavailable p ∧
      (start = 0 → numThreads < 2147483648 →
        p.busyCount + (handingOver p : Int) = (unavailable p : Int)) := by
  obtain ⟨-, hS, hB, -, hF⟩ := Inv_reachable h
  have hle := handingOver_le hS
  refine ⟨hB.1, hle, fun h0 hn => ?_⟩
  have hrange := hB.2 (by omega) (by omega)
  have hmod := hB.1
  have hsize := hF.size
  have hun : unavailable p ≤ p.wts.length := List.countP_le_length _
  omega

/-- Witness of C9 amended: a pool whose `busyCount` was 0 at construction, with
a worker between `fetch_sub` and `w.available = true`. -/
theorem busy_count_invariant_witness :
    run (construct 1 0) returningSchedule = some returningPool ∧
      (returningPool.busyCount % 4294967296 =
          (0 + (unavailable returningPool : Int) - (handingOver returningPool : Int)) %
            4294967296 ∧
        handingOver returningPool ≤ unavailable returningPool ∧
        ((0 : Int) = 0 → 1 < 2147483648 →
          returningPool.busyCount + (handingOver returningPool : Int) =
            (unavailable returningPool : Int))) :=
  ⟨by decide, busy_count_invariant 1 0 returningSchedule returningPool (by decide)⟩

/-- C10 (semaphore and queue accounting): in every reachable state
`taskCount`, the `schedule` calls between push and signal and the unit held by
the dispatcher add up to the queue length plus the destructor's signal; a
dispatcher blocked on a zero `taskCount` with no `schedule` call in progress
sees an empty queue, and a dispatcher inside the block under `queueLock` sees
a non-empty queue, so the `continue` of line 36 is not taken. -/
theorem semaphore_accounts_for_queue (numThreads : Nat) (start : Int)
    (acts : List Action) (p : ThreadPool)
    (h : run (construct numThreads start) acts = some p) :
    p.taskCount + p.signalling + p.dt.token = p.taskQueue.length + p.dtor.extra ∧
      (p.dt = .semWait → p.taskCount = 0 → p.signalling = 0 → p.taskQueue = []) ∧
      (p.dt = .dequeue → p.taskQueue ≠ []) := by
  obtain ⟨hQ, -, -, -, -⟩ := Inv_reachable h
  refine ⟨hQ.count, ?_, ?_⟩
  · intro hd hc hsig
    have := hQ.count
    rw [hd, hc, hsig] at this
    simp only [token_eqs] at this
    exact List.length_eq_zero.1 (by omega)
  · intro hd hq
    have := hQ.count
    rw [hd, hq] at this
    rcases hQ.deq hd with hx | hx <;> rw [hx] at this <;>
      simp [token_eqs, extra_eqs] at this

/-- Witness of C10: the dispatcher inside the block under `queueLock` with the
scheduled task in the queue. -/
theorem semaphore_accounts_for_queue_witness :
    run (construct 1 0) dequeueSchedule = some dequeuePool ∧
      (dequeuePool.taskCount + dequeuePool.signalling + dequeuePool.dt.token =
          dequeuePool.taskQueue.length + dequeuePool.dtor.extra ∧
        (dequeuePool.dt = .semWait → dequeuePool.taskCount = 0 →
          dequeuePool.signalling = 0 → dequeuePool.taskQueue = []) ∧
        (dequeuePool.dt = .dequeue → dequeuePool.taskQueue ≠ [])) :=
  ⟨by decide, semaphore_accounts_for_queue 1 0 dequeueSchedule dequeuePool (by decide)⟩

end ThreadPool
